import Mathlib

/-!
Verification of the documentation-aggregation engine (`scripts/aggregate.ts`).

The script is embedded shallowly:
* JavaScript strings are modelled as `List Char` (`Str`), with the string
  operations the script uses (`path.join`, prefix tests, `String.replace`,
  `trimStart`, glob selection) defined explicitly below;
* the filesystem is an association list from paths to file contents;
* `gray-matter` (the front-matter codec) is an external npm dependency whose
  sources are not part of this repository; it is modelled from the spec;
* the orchestrator `run` is a pure function from a filesystem to a filesystem
  plus the list of emitted warnings, and an `Except`-valued variant models
  error propagation for injected filesystem failures.
-/

set_option autoImplicit false
set_option maxRecDepth 4096

namespace Aggregate

/-- JavaScript strings, modelled as lists of characters. -/
abbrev Str := List Char

/-- Conversion from Lean string literals into the model. -/
def str (s : String) : Str := s.data

/-- `startsWith p s` holds when `p` is a leading segment of `s`. -/
def startsWith : Str → Str → Bool
  | [], _ => true
  | _ :: _, [] => false
  | a :: as, b :: bs => a == b && startsWith as bs

/-- `endsWith p s` holds when `p` is a trailing segment of `s`. -/
def endsWith (p s : Str) : Bool := startsWith p.reverse s.reverse

/-- Split `s` around the first occurrence of `d`; `none` when `d` does not occur. -/
def splitFirst (d : Str) : Str → Option (Str × Str)
  | [] => if d = [] then some ([], []) else none
  | a :: t =>
    if startsWith d (a :: t) = true then some ([], List.drop d.length (a :: t))
    else (splitFirst d t).map fun pr => (a :: pr.1, pr.2)

/-- Split `s` at every occurrence of the character `c`. -/
def splitCh (c : Char) : Str → List Str
  | [] => [[]]
  | a :: t =>
    if a = c then [] :: splitCh c t
    else
      match splitCh c t with
      | [] => [[a]]
      | h :: r => (a :: h) :: r

/-- JavaScript `String.prototype.trimStart`. -/
def trimStart (s : Str) : Str := s.dropWhile (·.isWhitespace)

/-- Whitespace trimming on both ends (as done by the YAML value parser). -/
def trimChars (s : Str) : Str :=
  ((s.dropWhile (·.isWhitespace)).reverse.dropWhile (·.isWhitespace)).reverse

/-- JavaScript `s.replace(/a/g, b)` for single characters. -/
def replaceAll (a b : Char) (s : Str) : Str := s.map fun c => if c = a then b else c

theorem startsWith_append (p t : Str) : startsWith p (p ++ t) = true := by
  induction p with
  | nil => simp [startsWith]
  | cons a as ih => simp [startsWith, ih]

theorem startsWith_eq_true_iff {p s : Str} :
    startsWith p s = true ↔ ∃ t, s = p ++ t := by
  constructor
  · intro h
    induction p generalizing s with
    | nil => exact ⟨s, rfl⟩
    | cons a as ih =>
      cases s with
      | nil => simp [startsWith] at h
      | cons b bs =>
        simp only [startsWith, Bool.and_eq_true, beq_iff_eq] at h
        obtain ⟨rfl, h2⟩ := h
        obtain ⟨t, rfl⟩ := ih h2
        exact ⟨t, rfl⟩
  · rintro ⟨t, rfl⟩
    exact startsWith_append p t

theorem splitFirst_eq {d s x y : Str} (h : splitFirst d s = some (x, y)) :
    s = x ++ d ++ y := by
  induction s generalizing x y with
  | nil =>
    by_cases hd : d = ([] : Str) <;> simp [splitFirst, hd] at h
    obtain ⟨rfl, rfl⟩ := h
    simp [hd]
  | cons a t ih =>
    by_cases hsw : startsWith d (a :: t) = true
    · rw [splitFirst, if_pos hsw] at h
      obtain ⟨u, hu⟩ := startsWith_eq_true_iff.mp hsw
      simp only [Option.some.injEq, Prod.mk.injEq] at h
      obtain ⟨rfl, rfl⟩ := h
      rw [hu, List.drop_left]
      simp
    · rw [splitFirst, if_neg hsw] at h
      cases hsp : splitFirst d t with
      | none => simp [hsp] at h
      | some pr =>
        obtain ⟨px, py⟩ := pr
        simp only [hsp, Option.map_some, Option.some.injEq, Prod.mk.injEq] at h
        obtain ⟨rfl, rfl⟩ := h
        simp [ih hsp]

theorem mem_replaceAll {a b : Char} {s : Str} (hne : a ≠ b) :
    a ∉ replaceAll a b s := by
  intro hmem
  simp only [replaceAll, List.mem_map] at hmem
  obtain ⟨c, _, hc⟩ := hmem
  by_cases h : c = a
  · simp [h] at hc
    exact hne hc.symm
  · simp [h] at hc

theorem not_mem_append {a : Char} {s t : Str} (hs : a ∉ s) (ht : a ∉ t) :
    a ∉ s ++ t := by
  intro h
  rcases List.mem_append.mp h with h | h
  · exact hs h
  · exact ht h

/-- A YAML scalar as it matters to the merge rule: either the null value
(which JavaScript sees as nullish) or any other scalar, kept as its text. -/
inductive YVal where
  | ynull : YVal
  | ystr : Str → YVal
deriving DecidableEq

/-- A front-matter mapping: keys in document order, as `gray-matter` returns
them and as the JavaScript object spread preserves them. -/
abbrev FrontMatter := List (Str × YVal)

/-- First-match association lookup (JavaScript property access). -/
def fmLookup (k : Str) : FrontMatter → Option YVal
  | [] => none
  | (k', v) :: t => if k' = k then some v else fmLookup k t

/-- JavaScript `{...data, k: v}`: every key kept in place, `k`'s value
replaced where it occurs (or appended when absent). -/
def fmSet (k : Str) (v : YVal) : FrontMatter → FrontMatter
  | [] => [(k, v)]
  | (k', v') :: t => if k' = k then (k, v) :: t else (k', v') :: fmSet k v t

/-- Modelled from the spec: one `key: value` line of a front-matter block. The
raw implementation is the external `gray-matter`/`js-yaml` dependency, which is
not part of this repository's sources. A value that is empty, `null` or `~`
denotes the YAML null. -/
def parseLine (l : Str) : Option (Str × YVal) :=
  match splitFirst (str ":") l with
  | none => none
  | some (k, rest) =>
    if k = [] then none
    else
      let v := trimChars rest
      if v = [] ∨ v = str "null" ∨ v = str "~" then some (k, YVal.ynull)
      else some (k, YVal.ystr v)

/-- Modelled from the spec: a whole front-matter block, line by line; any
unparseable line makes the whole block malformed. -/
def parseBlock (b : Str) : Option FrontMatter := (splitCh '\n' b).mapM parseLine

/-- Modelled from the spec: `gray-matter`'s decoder. A document either starts
with a `---` delimiter line followed by a parseable block closed by another
`---` line, or it has no metadata: absent or malformed blocks yield the empty
mapping with the original content as body, never an error. -/
def matterDecode (s : Str) : FrontMatter × Str :=
  if startsWith (str "---\n") s = true then
    match splitFirst (str "\n---\n") (List.drop 4 s) with
    | some (block, body) =>
      match parseBlock block with
      | some fm => (fm, body)
      | none => ([], s)
    | none => ([], s)
  else ([], s)

/-- Serialized text of a YAML scalar. -/
def yvalText : YVal → Str
  | YVal.ynull => str "null"
  | YVal.ystr v => v

/-- Modelled from the spec: `gray-matter`'s `stringify` — the mapping as a
delimited block followed by the body. -/
def matterStringify (fm : FrontMatter) (body : Str) : Str :=
  str "---\n" ++
    fm.foldr (fun kv acc => kv.1 ++ str ": " ++ yvalText kv.2 ++ str "\n" ++ acc)
      (str "---\n") ++ body

/-- One entry of the `REPOS` table of `scripts/aggregate.ts`. -/
structure RepoSpec where
  repo : Str
  localDir : Str
  docsDir : Option Str
  branch : Option Str

/-- The `REPOS` table (`scripts/aggregate.ts`, lines 14-20). -/
def REPOS : List RepoSpec :=
  [ ⟨str "peers-app/peers-sdk", str "_sources/peers-sdk", some (str "docs"), some (str "main")⟩,
    ⟨str "peers-app/peers-ui", str "_sources/peers-ui", some (str "."), some (str "main")⟩,
    ⟨str "peers-app/peers-host", str "_sources/peers-host", some (str "."), some (str "main")⟩,
    ⟨str "peers-app/peers-electron", str "_sources/peers-electron", some (str "."), some (str "main")⟩,
    ⟨str "peers-app/peers-react-native", str "_sources/peers-react-native", some (str "."), some (str "main")⟩ ]

/-- `const OUT_ROOT = 'projects'` (`scripts/aggregate.ts`, line 21). -/
def OUT_ROOT : Str := str "projects"

/-- `path.join(a, b)` in the forms the script uses: a clean relative segment
appended with `/`, with `path.join`'s normalization of a `"."` segment. -/
def joinP (a b : Str) : Str := if b = str "." then a else a ++ str "/" ++ b

/-- `path.join`/`path.posix.join` of a directory with a relative file path
produced by `globby` (never `"."`). -/
def joinFile (a b : Str) : Str := a ++ str "/" ++ b

/-- `path.join(r.local, r.docsDir ?? 'docs')` (line 27). -/
def srcDocsPath (r : RepoSpec) : Str := joinP r.localDir (r.docsDir.getD (str "docs"))

/-- `r.repo.split('/')[1]` (line 28). -/
def shortName (r : RepoSpec) : Str := (splitCh '/' r.repo).getD 1 []

/-- `r.branch ?? 'main'` (line 70). -/
def branchOf (r : RepoSpec) : Str := r.branch.getD (str "main")

/-- `r.docsDir === '.' ? rel : path.posix.join(r.docsDir ?? 'docs', rel)`
(line 69). -/
def sourceRelPath (r : RepoSpec) (rel : Str) : Str :=
  if r.docsDir = some (str ".") then rel else joinFile (r.docsDir.getD (str "docs")) rel

/-- The computed default edit URL (line 70):
`https://github.com/<repo>/edit/<branch>/<sourceRelPath>` with every
backslash replaced by a forward slash. -/
def computeEditUrl (r : RepoSpec) (rel : Str) : Str :=
  str "https://github.com/" ++ r.repo ++ str "/edit/" ++ branchOf r ++ str "/" ++
    replaceAll '\\' '/' (sourceRelPath r rel)

/-- The merged front matter written into a document (lines 72-76):
`{...fm.data, custom_edit_url: fm.data?.custom_edit_url ?? custom}`. -/
def mergedData (r : RepoSpec) (rel : Str) (data : FrontMatter) : FrontMatter :=
  fmSet (str "custom_edit_url")
    (match fmLookup (str "custom_edit_url") data with
     | some (YVal.ystr v) => YVal.ystr v
     | _ => YVal.ystr (computeEditUrl r rel))
    data

/-- The filesystem: an association list from file paths to file contents,
first match significant. Directories are implicit in the paths. -/
abbrev FS := List (Str × Str)

/-- Content of the file at `p`, when present. -/
def fsRead : FS → Str → Option Str
  | [], _ => none
  | (q, c) :: t, p => if q = p then some c else fsRead t p

/-- Write `c` at path `p`: replace the first entry for `p` in place, or append
a new entry. -/
def fsWrite : FS → Str → Str → FS
  | [], p, c => [(p, c)]
  | (q, d) :: t, p, c => if q = p then (p, c) :: t else (q, d) :: fsWrite t p c

/-- `fse.existsSync(p)`: a file sits at `p` itself, or `p` is a directory,
i.e. some file lives strictly below it. -/
def fsExists (fs : FS) (p : Str) : Bool :=
  fs.any fun e => e.1 = p ∨ startsWith (p ++ str "/") e.1 = true

/-- `p` lies strictly inside directory `dir`. -/
def inDir (dir p : Str) : Bool := startsWith (dir ++ str "/") p

/-- `globby('**/*', {cwd: dir})`: the paths below `dir`, relative to it, in
filesystem order. -/
def globUnder (fs : FS) (dir : Str) : List Str :=
  fs.filterMap fun e =>
    if inDir dir e.1 = true then some (List.drop (dir.length + 1) e.1) else none

/-- Markdown-family file: `.md` or `.mdx`. -/
def isMdFamily (rel : Str) : Bool := endsWith (str ".md") rel || endsWith (str ".mdx") rel

/-- A relative path with no separator, as matched by non-recursive glob
patterns such as `*.md`. -/
def isTopLevel (rel : Str) : Bool := !rel.contains '/'

/-- `globby(['*.md', '*.mdx'], {cwd: srcDocs})` (line 40): loose top-level
markdown-family files. -/
def rootMdSelection (fs : FS) (srcDocs : Str) : List Str :=
  (globUnder fs srcDocs).filter fun rel => isTopLevel rel && isMdFamily rel

/-- The pattern list `['docs/**/*', 'documentation/**/*', '*.md', 'CLAUDE.md']`
(line 46): note that the first two patterns match files of any extension. -/
def docPatternMatch (rel : Str) : Bool :=
  inDir (str "docs") rel || inDir (str "documentation") rel ||
    (isTopLevel rel && endsWith (str ".md") rel) || rel == str "CLAUDE.md"

/-- `globby(docPatterns, {cwd: srcDocs})` (line 47). -/
def docPatternSelection (fs : FS) (srcDocs : Str) : List Str :=
  (globUnder fs srcDocs).filter docPatternMatch

/-- `fse.copy(src, dest)` for one file; a vanished source is skipped (the
second selection pass guards each copy with `existsSync`). -/
def copyFile (fs : FS) (src dest : Str) : FS :=
  match fsRead fs src with
  | some c => fsWrite fs dest c
  | none => fs

/-- Copy each selected relative path from `srcDocs` to `out`, sequentially
(lines 41-43 and 48-55). -/
def copyList (fs : FS) (srcDocs out : Str) (rels : List Str) : FS :=
  rels.foldl (fun acc rel => copyFile acc (joinFile srcDocs rel) (joinFile out rel)) fs

/-- `fse.copy(srcDocs, out)` (line 58): recursive copy of the whole subtree
(or of the single file `srcDocs`, should it be one). -/
def copyTree (fs : FS) (srcDocs out : Str) : FS :=
  (globUnder fs srcDocs).foldl
    (fun acc rel => copyFile acc (joinFile srcDocs rel) (joinFile out rel))
    (match fsRead fs srcDocs with
     | some c => fsWrite fs out c
     | none => fs)

/-- The copy step of one repo (lines 36-59): two glob passes for the
root-files convention, a full subtree copy for a dedicated docs directory. -/
def copyPhase (r : RepoSpec) (srcDocs out : Str) (fs : FS) : FS :=
  if r.docsDir = some (str ".") then
    let fs₁ := copyList fs srcDocs out (rootMdSelection fs srcDocs)
    copyList fs₁ srcDocs out (docPatternSelection fs₁ srcDocs)
  else copyTree fs srcDocs out

/-- Rewriting of one copied document (lines 63-78): decode, merge the computed
default edit URL, re-serialize with the body's leading whitespace trimmed and
a final newline appended. -/
def injectFile (r : RepoSpec) (out : Str) (fs : FS) (rel : Str) : FS :=
  match fsRead fs (joinFile out rel) with
  | none => fs
  | some raw =>
    fsWrite fs (joinFile out rel)
      (matterStringify (mergedData r rel (matterDecode raw).1)
        (trimStart (matterDecode raw).2 ++ str "\n"))

/-- `custom_edit_url` injection over every `.md`/`.mdx` below `out`
(lines 62-78); the file list is computed once, before the rewrites. -/
def injectPhase (r : RepoSpec) (out : Str) (fs : FS) : FS :=
  ((globUnder fs out).filter isMdFamily).foldl (injectFile r out) fs

/-- Body of the synthesized fallback index (lines 86-88). -/
def synthBody (r : RepoSpec) : Str :=
  str "# " ++ shortName r ++ str "\n\nProject documentation aggregated from `" ++
    r.repo ++ str "`.\n"

/-- Front matter of the synthesized fallback index (line 89). -/
def synthData (r : RepoSpec) : FrontMatter :=
  [(str "custom_edit_url", YVal.ystr (str "https://github.com/" ++ r.repo))]

/-- Fallback index synthesis (lines 81-92): when neither `index.md` nor
`README.md` exists at the top of the repo's output directory, write one. -/
def indexPhase (r : RepoSpec) (out : Str) (fs : FS) : FS :=
  if fsExists fs (joinFile out (str "index.md")) ||
      fsExists fs (joinFile out (str "README.md")) then fs
  else fsWrite fs (joinFile out (str "index.md")) (matterStringify (synthData r) (synthBody r))

/-- The warning `[skip] <repo> has no <srcDocs>` (line 31). -/
def skipWarning (r : RepoSpec) : Str :=
  str "[skip] " ++ r.repo ++ str " has no " ++ srcDocsPath r

/-- The body of the per-repo loop (lines 26-93): skip with a warning when the
source root is absent, otherwise copy, inject and guarantee an index. -/
def processRepo (outRoot : Str) (r : RepoSpec) (fs : FS) : FS × List Str :=
  let srcDocs := srcDocsPath r
  let out := joinFile outRoot (shortName r)
  if fsExists fs srcDocs = true then
    (indexPhase r out (injectPhase r out (copyPhase r srcDocs out fs)), [])
  else (fs, [skipWarning r])

/-- The per-repo loop, threading the filesystem and collecting warnings. -/
def loop (outRoot : Str) : List RepoSpec → FS → FS × List Str
  | [], fs => (fs, [])
  | r :: rs, fs =>
    let p := processRepo outRoot r fs
    let q := loop outRoot rs p.1
    (q.1, p.2 ++ q.2)

/-- `fse.emptyDir(OUT_ROOT)` (line 24): everything at or below the output root
is removed. -/
def clearOut (outRoot : Str) (fs : FS) : FS :=
  fs.filter fun e => !(e.1 == outRoot || inDir outRoot e.1)

/-- The whole `run` (lines 23-96), generalized over the repo table and the
output root. -/
def runAgg (repos : List RepoSpec) (outRoot : Str) (fs : FS) : FS × List Str :=
  loop outRoot repos (clearOut outRoot fs)

/-- `run()` as shipped: the static `REPOS` table and `OUT_ROOT = 'projects'`. -/
def run (fs : FS) : FS × List Str := runAgg REPOS OUT_ROOT fs

/-- A process environment, as a key-value list. -/
abbrev Env := List (Str × Str)

/-- The run as a function of the process environment: `aggregate.ts` reads no
environment variable — `OUT_ROOT` is the string literal `'projects'`
(line 21) — so the function is constant in its environment argument. -/
def runWithEnv (_env : Env) (fs : FS) : FS × List Str := run fs

/-- The kinds of filesystem errors distinguished by the spec's taxonomy. -/
inductive FsErrorKind where
  | notFound : FsErrorKind
  | permission : FsErrorKind
  | diskFull : FsErrorKind
  | other : FsErrorKind
deriving DecidableEq

/-- A thrown filesystem error: its kind and the path it names. -/
abbrev FsError := FsErrorKind × Str

instance instDecEqExcept {ε α : Type} [DecidableEq ε] [DecidableEq α] :
    DecidableEq (Except ε α) := fun x y =>
  match x, y with
  | Except.ok a, Except.ok b =>
    if h : a = b then Decidable.isTrue (by rw [h])
    else Decidable.isFalse (by intro hh; cases hh; exact h rfl)
  | Except.error a, Except.error b =>
    if h : a = b then Decidable.isTrue (by rw [h])
    else Decidable.isFalse (by intro hh; cases hh; exact h rfl)
  | Except.ok _, Except.error _ => Decidable.isFalse (by intro hh; cases hh)
  | Except.error _, Except.ok _ => Decidable.isFalse (by intro hh; cases hh)

/-- Error injection for the copy/write operations: the paths whose write
fails, each with the kind of error it raises. -/
abbrev FailSpec := List (Str × FsErrorKind)

/-- The error, if any, injected at path `p`. -/
def failAt : FailSpec → Str → Option FsErrorKind
  | [], _ => none
  | (q, k) :: t, p => if q = p then some k else failAt t p

/-- A write that may throw: the `Except` image of `fsWrite` under injected
failures. -/
def fsWriteE (fail : FailSpec) (fs : FS) (p c : Str) : Except FsError FS :=
  match failAt fail p with
  | some k => Except.error (k, p)
  | none => Except.ok (fsWrite fs p c)

/-- `copyFile` with failure injection. -/
def copyFileE (fail : FailSpec) (fs : FS) (src dest : Str) : Except FsError FS :=
  match fsRead fs src with
  | some c => fsWriteE fail fs dest c
  | none => Except.ok fs

/-- `copyList` with failure injection: the loop awaits every copy, and a
thrown error leaves the loop at once — there is no handler around it. -/
def copyListE (fail : FailSpec) (srcDocs out : Str) (rels : List Str) (fs : FS) :
    Except FsError FS :=
  rels.foldlM (fun acc rel => copyFileE fail acc (joinFile srcDocs rel) (joinFile out rel)) fs

/-- `copyTree` with failure injection. -/
def copyTreeE (fail : FailSpec) (fs : FS) (srcDocs out : Str) : Except FsError FS := do
  let base ←
    match fsRead fs srcDocs with
    | some c => fsWriteE fail fs out c
    | none => Except.ok fs
  (globUnder fs srcDocs).foldlM
    (fun acc rel => copyFileE fail acc (joinFile srcDocs rel) (joinFile out rel)) base

/-- The copy step with failure injection. -/
def copyPhaseE (fail : FailSpec) (r : RepoSpec) (srcDocs out : Str) (fs : FS) :
    Except FsError FS :=
  if r.docsDir = some (str ".") then do
    let fs₁ ← copyListE fail srcDocs out (rootMdSelection fs srcDocs) fs
    copyListE fail srcDocs out (docPatternSelection fs₁ srcDocs) fs₁
  else copyTreeE fail fs srcDocs out

/-- One document rewrite with failure injection on its write. -/
def injectFileE (fail : FailSpec) (r : RepoSpec) (out : Str) (fs : FS) (rel : Str) :
    Except FsError FS :=
  match fsRead fs (joinFile out rel) with
  | none => Except.ok fs
  | some raw =>
    fsWriteE fail fs (joinFile out rel)
      (matterStringify (mergedData r rel (matterDecode raw).1)
        (trimStart (matterDecode raw).2 ++ str "\n"))

/-- The injection pass with failure injection. -/
def injectPhaseE (fail : FailSpec) (r : RepoSpec) (out : Str) (fs : FS) :
    Except FsError FS :=
  ((globUnder fs out).filter isMdFamily).foldlM (injectFileE fail r out) fs

/-- The fallback-index write with failure injection. -/
def indexPhaseE (fail : FailSpec) (r : RepoSpec) (out : Str) (fs : FS) :
    Except FsError FS :=
  if fsExists fs (joinFile out (str "index.md")) ||
      fsExists fs (joinFile out (str "README.md")) then Except.ok fs
  else fsWriteE fail fs (joinFile out (str "index.md"))
    (matterStringify (synthData r) (synthBody r))

/-- The per-repo body with failure injection: the `existsSync` pre-check is
the only recoverable path; nothing catches an error thrown further down. -/
def processRepoE (fail : FailSpec) (outRoot : Str) (r : RepoSpec) (fs : FS) :
    Except FsError (FS × List Str) :=
  let srcDocs := srcDocsPath r
  let out := joinFile outRoot (shortName r)
  if fsExists fs srcDocs = true then do
    let fs₁ ← copyPhaseE fail r srcDocs out fs
    let fs₂ ← injectPhaseE fail r out fs₁
    let fs₃ ← indexPhaseE fail r out fs₂
    Except.ok (fs₃, [])
  else Except.ok (fs, [skipWarning r])

/-- The per-repo loop with failure injection: an error thrown in any
iteration propagates out of the loop immediately. -/
def loopE (fail : FailSpec) (outRoot : Str) : List RepoSpec → FS → Except FsError (FS × List Str)
  | [], fs => Except.ok (fs, [])
  | r :: rs, fs => do
    let p ← processRepoE fail outRoot r fs
    let q ← loopE fail outRoot rs p.1
    Except.ok (q.1, p.2 ++ q.2)

/-- The whole run with failure injection. -/
def runAggE (fail : FailSpec) (repos : List RepoSpec) (outRoot : Str) (fs : FS) :
    Except FsError (FS × List Str) :=
  loopE fail outRoot repos (clearOut outRoot fs)

/-- The process exit status: `run().catch(err => { ...; process.exit(1) })`
(lines 98-101) turns any propagated error into exit status 1; a completed run
exits with 0. -/
def exitCode (fail : FailSpec) (fs : FS) : Nat :=
  match runAggE fail REPOS OUT_ROOT fs with
  | Except.ok _ => 0
  | Except.error _ => 1

theorem fmLookup_fmSet_self (k : Str) (v : YVal) (d : FrontMatter) :
    fmLookup k (fmSet k v d) = some v := by
  induction d with
  | nil => simp [fmSet, fmLookup]
  | cons e t ih =>
    obtain ⟨k', v'⟩ := e
    by_cases h : k' = k
    · subst h
      simp [fmSet, fmLookup]
    · simp [fmSet, h, fmLookup, ih]

theorem fmLookup_fmSet_ne {k k₀ : Str} (v : YVal) (d : FrontMatter) (h : k ≠ k₀) :
    fmLookup k₀ (fmSet k v d) = fmLookup k₀ d := by
  induction d with
  | nil => simp [fmSet, fmLookup, h]
  | cons e t ih =>
    obtain ⟨k', v'⟩ := e
    by_cases h' : k' = k
    · subst h'
      simp [fmSet, fmLookup, h]
    · simp [fmSet, h', fmLookup, ih]

theorem inDir_joinFile_joinFile (o s rel : Str) :
    inDir o (joinFile (joinFile o s) rel) = true := by
  unfold inDir joinFile
  exact startsWith_eq_true_iff.mpr ⟨s ++ str "/" ++ rel, by simp [List.append_assoc]⟩

theorem inDir_joinFile (o s : Str) : inDir o (joinFile o s) = true := by
  unfold inDir joinFile
  exact startsWith_eq_true_iff.mpr ⟨s, by simp [List.append_assoc]⟩

theorem clearOut_fsWrite {o p : Str} (c : Str) (h : inDir o p = true) (fs : FS) :
    clearOut o (fsWrite fs p c) = clearOut o fs := by
  induction fs with
  | nil => simp [fsWrite, clearOut, h]
  | cons e t ih =>
    obtain ⟨q, d⟩ := e
    by_cases hq : q = p
    · subst hq
      simp [fsWrite, clearOut, List.filter_cons, h]
    · simp only [fsWrite, if_neg hq, clearOut, List.filter_cons]
      simp only [clearOut] at ih
      rw [ih]

theorem clearOut_copyFile {o dest : Str} (src : Str) (h : inDir o dest = true) (fs : FS) :
    clearOut o (copyFile fs src dest) = clearOut o fs := by
  unfold copyFile
  cases fsRead fs src with
  | none => rfl
  | some c => exact clearOut_fsWrite c h fs

theorem clearOut_foldl {β : Type} (o : Str) (f : FS → β → FS)
    (hf : ∀ fs b, clearOut o (f fs b) = clearOut o fs) :
    ∀ (l : List β) (fs : FS), clearOut o (l.foldl f fs) = clearOut o fs := by
  intro l
  induction l with
  | nil => intro fs; rfl
  | cons b t ih =>
    intro fs
    simp only [List.foldl_cons]
    rw [ih, hf]

theorem clearOut_copyPhase (o : Str) (r : RepoSpec) (srcDocs s : Str) (fs : FS) :
    clearOut o (copyPhase r srcDocs (joinFile o s) fs) = clearOut o fs := by
  unfold copyPhase copyTree copyList
  have hstep : ∀ (fs' : FS) (rel : Str),
      clearOut o (copyFile fs' (joinFile srcDocs rel) (joinFile (joinFile o s) rel)) =
        clearOut o fs' :=
    fun fs' rel => clearOut_copyFile _ (inDir_joinFile_joinFile o s rel) fs'
  by_cases hd : r.docsDir = some (str ".")
  · simp only [if_pos hd]
    rw [clearOut_foldl o _ hstep, clearOut_foldl o _ hstep]
  · simp only [if_neg hd]
    rw [clearOut_foldl o _ hstep]
    cases fsRead fs srcDocs with
    | none => rfl
    | some c => exact clearOut_fsWrite c (inDir_joinFile o s) fs

theorem clearOut_injectPhase (o : Str) (r : RepoSpec) (s : Str) (fs : FS) :
    clearOut o (injectPhase r (joinFile o s) fs) = clearOut o fs := by
  unfold injectPhase
  refine clearOut_foldl o _ (fun fs' rel => ?_) _ fs
  unfold injectFile
  cases fsRead fs' (joinFile (joinFile o s) rel) with
  | none => rfl
  | some raw => exact clearOut_fsWrite _ (inDir_joinFile_joinFile o s rel) fs'

theorem clearOut_indexPhase (o : Str) (r : RepoSpec) (s : Str) (fs : FS) :
    clearOut o (indexPhase r (joinFile o s) fs) = clearOut o fs := by
  unfold indexPhase
  by_cases h : (fsExists fs (joinFile (joinFile o s) (str "index.md")) ||
      fsExists fs (joinFile (joinFile o s) (str "README.md"))) = true
  · rw [if_pos h]
  · rw [if_neg h]
    exact clearOut_fsWrite _ (inDir_joinFile_joinFile o s _) fs

theorem clearOut_processRepo (o : Str) (r : RepoSpec) (fs : FS) :
    clearOut o (processRepo o r fs).1 = clearOut o fs := by
  unfold processRepo
  by_cases h : fsExists fs (srcDocsPath r) = true
  · simp only [if_pos h]
    rw [clearOut_indexPhase, clearOut_injectPhase, clearOut_copyPhase]
  · simp only [if_neg h]

theorem clearOut_loop (o : Str) (rs : List RepoSpec) (fs : FS) :
    clearOut o (loop o rs fs).1 = clearOut o fs := by
  induction rs generalizing fs with
  | nil => rfl
  | cons r t ih =>
    simp only [loop]
    rw [ih, clearOut_processRepo]

theorem clearOut_idem (o : Str) (fs : FS) :
    clearOut o (clearOut o fs) = clearOut o fs := by
  unfold clearOut
  rw [List.filter_filter]
  simp [Bool.and_self]

theorem loop_append (o : Str) (xs ys : List RepoSpec) (fs : FS) :
    loop o (xs ++ ys) fs =
      ((loop o ys (loop o xs fs).1).1, (loop o xs fs).2 ++ (loop o ys (loop o xs fs).1).2) := by
  induction xs generalizing fs with
  | nil => simp [loop]
  | cons r t ih =>
    simp only [List.cons_append, loop, List.append_eq, ih, List.append_assoc]

theorem processRepo_missing {o : Str} {r : RepoSpec} {fs : FS}
    (h : fsExists fs (srcDocsPath r) = false) :
    processRepo o r fs = (fs, [skipWarning r]) := by
  unfold processRepo
  simp [h]

theorem fsExists_fsWrite_mono {q : Str} (p c : Str) {fs : FS}
    (h : fsExists fs q = true) : fsExists (fsWrite fs p c) q = true := by
  induction fs with
  | nil => simp [fsExists] at h
  | cons e t ih =>
    obtain ⟨p', c'⟩ := e
    simp only [fsExists, List.any_cons, Bool.or_eq_true] at h
    by_cases hp : p' = p
    · subst hp
      rw [show fsWrite ((p', c') :: t) p' c = (p', c) :: t from by simp [fsWrite]]
      simp only [fsExists, List.any_cons, Bool.or_eq_true]
      exact h
    · simp only [fsWrite, if_neg hp, fsExists, List.any_cons, Bool.or_eq_true]
      rcases h with h1 | h2
      · exact Or.inl h1
      · exact Or.inr (ih h2)

theorem fsExists_fsWrite_self (fs : FS) (p c : Str) :
    fsExists (fsWrite fs p c) p = true := by
  induction fs with
  | nil => simp [fsWrite, fsExists]
  | cons e t ih =>
    obtain ⟨p', c'⟩ := e
    by_cases hp : p' = p
    · subst hp
      rw [show fsWrite ((p', c') :: t) p' c = (p', c) :: t from by simp [fsWrite]]
      simp [fsExists]
    · simp only [fsWrite, if_neg hp, fsExists, List.any_cons, Bool.or_eq_true]
      exact Or.inr ih

theorem fsExists_copyFile_mono {q : Str} (src dest : Str) {fs : FS}
    (h : fsExists fs q = true) : fsExists (copyFile fs src dest) q = true := by
  unfold copyFile
  cases fsRead fs src with
  | none => exact h
  | some c => exact fsExists_fsWrite_mono dest c h

theorem fsExists_foldl_mono {β : Type} {q : Str} (f : FS → β → FS)
    (hf : ∀ fs b, fsExists fs q = true → fsExists (f fs b) q = true) :
    ∀ (l : List β) (fs : FS), fsExists fs q = true → fsExists (l.foldl f fs) q = true := by
  intro l
  induction l with
  | nil => intro fs h; exact h
  | cons b t ih =>
    intro fs h
    simp only [List.foldl_cons]
    exact ih _ (hf fs b h)

theorem fsExists_processRepo_mono {q : Str} (o : Str) (r : RepoSpec) {fs : FS}
    (h : fsExists fs q = true) : fsExists (processRepo o r fs).1 q = true := by
  unfold processRepo
  by_cases hx : fsExists fs (srcDocsPath r) = true
  · simp only [if_pos hx]
    have h1 : fsExists (copyPhase r (srcDocsPath r) (joinFile o (shortName r)) fs) q = true := by
      unfold copyPhase copyTree copyList
      by_cases hd : r.docsDir = some (str ".")
      · simp only [if_pos hd]
        exact fsExists_foldl_mono _ (fun fs' b => fsExists_copyFile_mono _ _)
          _ _ (fsExists_foldl_mono _ (fun fs' b => fsExists_copyFile_mono _ _) _ _ h)
      · simp only [if_neg hd]
        refine fsExists_foldl_mono _ (fun fs' b => fsExists_copyFile_mono _ _) _ _ ?_
        cases fsRead fs (srcDocsPath r) with
        | none => exact h
        | some c => exact fsExists_fsWrite_mono _ _ h
    have h2 : fsExists (injectPhase r (joinFile o (shortName r))
        (copyPhase r (srcDocsPath r) (joinFile o (shortName r)) fs)) q = true := by
      unfold injectPhase
      refine fsExists_foldl_mono _ (fun fs' rel hh => ?_) _ _ h1
      unfold injectFile
      cases fsRead fs' (joinFile (joinFile o (shortName r)) rel) with
      | none => exact hh
      | some raw => exact fsExists_fsWrite_mono _ _ hh
    unfold indexPhase
    by_cases hi : (fsExists (injectPhase r (joinFile o (shortName r))
        (copyPhase r (srcDocsPath r) (joinFile o (shortName r)) fs))
          (joinFile (joinFile o (shortName r)) (str "index.md")) ||
        fsExists (injectPhase r (joinFile o (shortName r))
        (copyPhase r (srcDocsPath r) (joinFile o (shortName r)) fs))
          (joinFile (joinFile o (shortName r)) (str "README.md"))) = true
    · simp only [if_pos hi]
      exact h2
    · simp only [if_neg hi]
      exact fsExists_fsWrite_mono _ _ h2
  · simp only [if_neg hx]
    exact h

theorem fsExists_loop_mono {q : Str} (o : Str) (rs : List RepoSpec) {fs : FS}
    (h : fsExists fs q = true) : fsExists (loop o rs fs).1 q = true := by
  induction rs generalizing fs with
  | nil => exact h
  | cons r t ih =>
    simp only [loop]
    exact ih (fsExists_processRepo_mono o r h)

theorem replaceAll_of_not_mem {a b : Char} {s : Str} (h : a ∉ s) :
    replaceAll a b s = s := by
  induction s with
  | nil => rfl
  | cons c t ih =>
    simp only [List.mem_cons, not_or] at h
    have hc : ¬c = a := fun hh => h.1 hh.symm
    simp only [replaceAll, List.map_cons, if_neg hc]
    simp only [replaceAll] at ih
    rw [ih h.2]

theorem startsWith_iff_isPrefix {p s : Str} : startsWith p s = true ↔ p <+: s := by
  rw [startsWith_eq_true_iff]
  constructor
  · rintro ⟨t, rfl⟩
    exact ⟨t, rfl⟩
  · rintro ⟨t, rfl⟩
    exact ⟨t, rfl⟩

theorem fsRead_fsWrite_self (fs : FS) (p c : Str) :
    fsRead (fsWrite fs p c) p = some c := by
  induction fs with
  | nil => simp [fsWrite, fsRead]
  | cons e t ih =>
    obtain ⟨q, d⟩ := e
    by_cases hq : q = p
    · subst hq
      rw [show fsWrite ((q, d) :: t) q c = (q, c) :: t from by simp [fsWrite]]
      simp [fsRead]
    · simp only [fsWrite, if_neg hq, fsRead]
      exact ih

theorem fsRead_fsWrite_ne {p q : Str} (fs : FS) (c : Str) (h : q ≠ p) :
    fsRead (fsWrite fs q c) p = fsRead fs p := by
  induction fs with
  | nil => simp [fsWrite, fsRead, h]
  | cons e t ih =>
    obtain ⟨q', d⟩ := e
    by_cases hq : q' = q
    · subst hq
      rw [show fsWrite ((q', d) :: t) q' c = (q', c) :: t from by simp [fsWrite]]
      simp [fsRead, h]
    · simp only [fsWrite, if_neg hq, fsRead]
      by_cases hp : q' = p
      · rw [if_pos hp, if_pos hp]
      · rw [if_neg hp, if_neg hp, ih]

theorem fsRead_isSome_of_mem {fs : FS} {p c : Str} (h : (p, c) ∈ fs) :
    ∃ c', fsRead fs p = some c' := by
  induction fs with
  | nil => simp at h
  | cons e t ih =>
    obtain ⟨q, d⟩ := e
    by_cases hq : q = p
    · exact ⟨d, by simp [fsRead, hq]⟩
    · rcases List.mem_cons.mp h with h1 | h2
      · exact absurd (congrArg Prod.fst h1).symm hq
      · obtain ⟨c', hc'⟩ := ih h2
        exact ⟨c', by simp [fsRead, hq, hc']⟩

theorem length_append_slash (dir : Str) : (dir ++ str "/").length = dir.length + 1 := by
  simp [List.length_append, str]

theorem globUnder_mem {fs : FS} {dir rel : Str} (h : rel ∈ globUnder fs dir) :
    ∃ c, (joinFile dir rel, c) ∈ fs := by
  unfold globUnder at h
  rw [List.mem_filterMap] at h
  obtain ⟨e, he, hrel⟩ := h
  by_cases hd : inDir dir e.1 = true
  · rw [if_pos hd] at hrel
    have hd' : startsWith (dir ++ str "/") e.1 = true := hd
    obtain ⟨t, ht⟩ := startsWith_eq_true_iff.mp hd'
    have hdrop : List.drop (dir.length + 1) e.1 = t := by
      rw [ht, ← length_append_slash dir, List.drop_left]
    rw [hdrop] at hrel
    have ht' : t = rel := by injection hrel
    have hj : joinFile dir rel = e.1 := by
      show dir ++ str "/" ++ rel = e.1
      rw [← ht']
      exact ht.symm
    exact ⟨e.2, by rw [hj]; exact he⟩
  · rw [if_neg hd] at hrel
    exact absurd hrel (by simp)

theorem indexPhase_ensures (r : RepoSpec) (out : Str) (fs : FS) :
    fsExists (indexPhase r out fs) (joinFile out (str "index.md")) = true ∨
      fsExists (indexPhase r out fs) (joinFile out (str "README.md")) = true := by
  unfold indexPhase
  by_cases hi : (fsExists fs (joinFile out (str "index.md")) ||
      fsExists fs (joinFile out (str "README.md"))) = true
  · rw [if_pos hi]
    exact Bool.or_eq_true_iff.mp hi
  · rw [if_neg hi]
    exact Or.inl (fsExists_fsWrite_self fs _ _)

/-- Claim C1, counterexample: a document whose front matter carries
`custom_edit_url: null` has the key present with a value, yet the merged
mapping written to the output replaces it with the computed default, so an
existing key's value is not always kept. -/
theorem C1_counterexample :
    fmLookup (str "custom_edit_url")
        (matterDecode (str "---\ncustom_edit_url: null\n---\nbody\n")).1 =
      some YVal.ynull ∧
    fmLookup (str "custom_edit_url")
        (mergedData
          ⟨str "peers-app/peers-sdk", str "_sources/peers-sdk",
            some (str "docs"), some (str "main")⟩
          (str "intro.md")
          (matterDecode (str "---\ncustom_edit_url: null\n---\nbody\n")).1) =
      some (YVal.ystr (str "https://github.com/peers-app/peers-sdk/edit/main/docs/intro.md")) := by
  decide

/-- Claim C1 (amended): keys other than `custom_edit_url` are always kept
with their existing values; a pre-existing `custom_edit_url` is kept exactly
when its value is non-null; the computed default is inserted when the key is
absent. (As stated, the claim fails only for a present-but-null
`custom_edit_url`, which the merge replaces.) -/
theorem C1_merge_preservation :
    (∀ (r : RepoSpec) (rel : Str) (data : FrontMatter) (k : Str) (v : YVal),
      fmLookup k data = some v → k ≠ str "custom_edit_url" →
      fmLookup k (mergedData r rel data) = some v) ∧
    (∀ (r : RepoSpec) (rel : Str) (data : FrontMatter) (v : YVal),
      fmLookup (str "custom_edit_url") data = some v → v ≠ YVal.ynull →
      fmLookup (str "custom_edit_url") (mergedData r rel data) = some v) ∧
    (∀ (r : RepoSpec) (rel : Str) (data : FrontMatter),
      fmLookup (str "custom_edit_url") data = none →
      fmLookup (str "custom_edit_url") (mergedData r rel data) =
        some (YVal.ystr (computeEditUrl r rel))) := by
  refine ⟨?_, ?_, ?_⟩
  · intro r rel data k v hv hk
    unfold mergedData
    rw [fmLookup_fmSet_ne _ _ (fun h => hk h.symm)]
    exact hv
  · intro r rel data v hv hnn
    cases v with
    | ynull => exact absurd rfl hnn
    | ystr s =>
      unfold mergedData
      rw [hv, fmLookup_fmSet_self]
  · intro r rel data h
    unfold mergedData
    rw [h, fmLookup_fmSet_self]

/-- Claim C1, witness: a concrete document with `custom_edit_url: X` and
`title: T` keeps both values through the merge. -/
theorem C1_merge_preservation_witness :
    fmLookup (str "custom_edit_url")
        (mergedData
          ⟨str "peers-app/peers-sdk", str "_sources/peers-sdk",
            some (str "docs"), some (str "main")⟩
          (str "intro.md")
          [(str "custom_edit_url", YVal.ystr (str "X")), (str "title", YVal.ystr (str "T"))]) =
      some (YVal.ystr (str "X")) ∧
    fmLookup (str "title")
        (mergedData
          ⟨str "peers-app/peers-sdk", str "_sources/peers-sdk",
            some (str "docs"), some (str "main")⟩
          (str "intro.md")
          [(str "custom_edit_url", YVal.ystr (str "X")), (str "title", YVal.ystr (str "T"))]) =
      some (YVal.ystr (str "T")) :=
  ⟨C1_merge_preservation.2.1 _ _ _ _ (by decide) (by decide),
   C1_merge_preservation.1 _ _ _ _ _ (by decide) (by decide)⟩

/-- Claim C10: when the existing front matter carries `custom_edit_url` with
the null value, the merge replaces it with the computed default edit URL. -/
theorem C10_nullish_replaced :
    ∀ (r : RepoSpec) (rel : Str) (data : FrontMatter),
      fmLookup (str "custom_edit_url") data = some YVal.ynull →
      fmLookup (str "custom_edit_url") (mergedData r rel data) =
        some (YVal.ystr (computeEditUrl r rel)) := by
  intro r rel data h
  unfold mergedData
  rw [h, fmLookup_fmSet_self]

/-- Claim C10, witness: the replacement at a concrete repo, file and
null-valued mapping. -/
theorem C10_nullish_replaced_witness :
    fmLookup (str "custom_edit_url")
        (mergedData
          ⟨str "peers-app/peers-ui", str "_sources/peers-ui",
            some (str "."), some (str "main")⟩
          (str "README.md") [(str "custom_edit_url", YVal.ynull)]) =
      some (YVal.ystr (computeEditUrl
        ⟨str "peers-app/peers-ui", str "_sources/peers-ui",
          some (str "."), some (str "main")⟩ (str "README.md"))) :=
  C10_nullish_replaced _ _ _ (by decide)

/-- Claim C2: the computed default edit URL is
`https://github.com/<repo>/edit/<branch>/<sourceRelPath>`, where the source
relative path is the output-relative path itself under the root-files
convention and the docs directory name joined in front of it under the
dedicated-subdirectory convention, and the URL never contains a backslash. -/
theorem C2_edit_url_computation :
    (∀ (r : RepoSpec) (rel : Str), r.docsDir = some (str ".") → '\\' ∉ rel →
      computeEditUrl r rel =
        str "https://github.com/" ++ r.repo ++ str "/edit/" ++ branchOf r ++ str "/" ++ rel) ∧
    (∀ (r : RepoSpec) (rel : Str), r.docsDir ≠ some (str ".") →
      '\\' ∉ r.docsDir.getD (str "docs") → '\\' ∉ rel →
      computeEditUrl r rel =
        str "https://github.com/" ++ r.repo ++ str "/edit/" ++ branchOf r ++ str "/" ++
          (r.docsDir.getD (str "docs") ++ str "/" ++ rel)) ∧
    (∀ (r : RepoSpec) (rel : Str), '\\' ∉ r.repo → '\\' ∉ branchOf r →
      '\\' ∉ computeEditUrl r rel) := by
  refine ⟨?_, ?_, ?_⟩
  · intro r rel hdot hbs
    unfold computeEditUrl sourceRelPath
    rw [if_pos hdot, replaceAll_of_not_mem hbs]
  · intro r rel hdot hbs1 hbs2
    unfold computeEditUrl sourceRelPath joinFile
    rw [if_neg hdot,
      replaceAll_of_not_mem (not_mem_append (not_mem_append hbs1 (by decide)) hbs2)]
  · intro r rel h1 h2
    unfold computeEditUrl
    refine not_mem_append (not_mem_append (not_mem_append (not_mem_append
      (not_mem_append (by decide) h1) (by decide)) h2) (by decide)) ?_
    exact mem_replaceAll (by decide)

/-- Claim C2, witness: the spec's two worked examples, a dedicated-convention
file `devices.md` and a root-convention `README.md`, plus backslash-freeness
at a concrete input. -/
theorem C2_edit_url_computation_witness :
    computeEditUrl
        ⟨str "org/sdk", str "_sources/sdk", some (str "docs"), some (str "main")⟩
        (str "devices.md") =
      str "https://github.com/" ++ str "org/sdk" ++ str "/edit/" ++ str "main" ++ str "/" ++
        (str "docs" ++ str "/" ++ str "devices.md") ∧
    computeEditUrl
        ⟨str "org/ui", str "_sources/ui", some (str "."), some (str "main")⟩
        (str "README.md") =
      str "https://github.com/" ++ str "org/ui" ++ str "/edit/" ++ str "main" ++ str "/" ++
        str "README.md" ∧
    '\\' ∉ computeEditUrl
        ⟨str "org/ui", str "_sources/ui", some (str "."), some (str "main")⟩
        (str "dir\\file.md") :=
  ⟨C2_edit_url_computation.2.1 _ _ (by decide) (by decide) (by decide),
   C2_edit_url_computation.1 _ _ (by decide) (by decide),
   C2_edit_url_computation.2.2 _ _ (by decide) (by decide)⟩

/-- Claim C4: front-matter decoding is a total function; every document
either decodes to a parsed block and the remaining body, or — when the
metadata block is absent or malformed — to the empty mapping with the
original content preserved as the body. No error case exists. -/
theorem C4_decode_total :
    ∀ s : Str,
      matterDecode s = ([], s) ∨
      ∃ (fm : FrontMatter) (block body : Str),
        s = str "---\n" ++ block ++ str "\n---\n" ++ body ∧
        parseBlock block = some fm ∧
        matterDecode s = (fm, body) := by
  intro s
  unfold matterDecode
  by_cases h : startsWith (str "---\n") s = true
  · rw [if_pos h]
    cases hsp : splitFirst (str "\n---\n") (List.drop 4 s) with
    | none => exact Or.inl rfl
    | some pr =>
      obtain ⟨block, body⟩ := pr
      cases hpb : parseBlock block with
      | none =>
        refine Or.inl ?_
        simp [hpb]
      | some fm =>
        refine Or.inr ⟨fm, block, body, ?_, hpb, by simp [hpb]⟩
        obtain ⟨t, ht⟩ := startsWith_eq_true_iff.mp h
        have hdrop : List.drop 4 s = t := by
          rw [ht, show (4 : Nat) = (str "---\n").length from rfl, List.drop_left]
        rw [hdrop] at hsp
        have := splitFirst_eq hsp
        rw [ht, this]
        simp [List.append_assoc]
  · rw [if_neg h]
    exact Or.inl rfl

/-- Claim C5: aggregation is idempotent — the output root is fully cleared
and rebuilt from the sources alone, so running twice over unchanged sources
yields the identical filesystem and warnings, for any repo table and output
root, in particular for the shipped `run`. -/
theorem C5_idempotent :
    (∀ (repos : List RepoSpec) (outRoot : Str) (fs : FS),
      runAgg repos outRoot (runAgg repos outRoot fs).1 = runAgg repos outRoot fs) ∧
    (∀ fs : FS, run (run fs).1 = run fs) := by
  have key : ∀ (repos : List RepoSpec) (outRoot : Str) (fs : FS),
      runAgg repos outRoot (runAgg repos outRoot fs).1 = runAgg repos outRoot fs := by
    intro repos o fs
    unfold runAgg
    rw [clearOut_loop, clearOut_idem]
  exact ⟨key, fun fs => key REPOS OUT_ROOT fs⟩

/-- Claim C6: a repo whose resolved source root is absent at the moment it is
processed contributes exactly its one skip warning and leaves the filesystem
untouched; the run neither aborts nor disturbs the processing of the
remaining repos, which happens in declared order. -/
theorem C6_missing_root_skipped :
    ∀ (outRoot : Str) (pre post : List RepoSpec) (r : RepoSpec) (fs fs₁ : FS) (w₁ : List Str),
      loop outRoot pre (clearOut outRoot fs) = (fs₁, w₁) →
      fsExists fs₁ (srcDocsPath r) = false →
      runAgg (pre ++ r :: post) outRoot fs =
        ((runAgg (pre ++ post) outRoot fs).1,
          w₁ ++ skipWarning r :: (loop outRoot post fs₁).2) := by
  intro o pre post r fs fs₁ w₁ hpre h
  unfold runAgg
  rw [loop_append o pre (r :: post), loop_append o pre post, hpre]
  have hmiss : processRepo o r fs₁ = (fs₁, [skipWarning r]) := processRepo_missing h
  simp [loop, hmiss]

/-- Claim C6, witness: a single-repo table whose source root is missing from
the empty filesystem yields exactly the one warning and no output. -/
theorem C6_missing_root_skipped_witness :
    runAgg
        [⟨str "peers-app/peers-ui", str "_sources/peers-ui", some (str "."), some (str "main")⟩]
        (str "projects") [] =
      ((runAgg [] (str "projects") []).1,
        [] ++ skipWarning
            ⟨str "peers-app/peers-ui", str "_sources/peers-ui", some (str "."), some (str "main")⟩ ::
          (loop (str "projects") [] []).2) :=
  C6_missing_root_skipped (str "projects") [] []
    ⟨str "peers-app/peers-ui", str "_sources/peers-ui", some (str "."), some (str "main")⟩
    [] [] [] rfl (by decide)

/-- Claim C7: the synthesized fallback index opens with a level-1 heading
equal to the repo short name, mentions the full repo identifier, and carries
`custom_edit_url` pointing at the repository root; it is written whenever the
output directory has neither `index.md` nor `README.md`; and after the run
every processed repo's output directory holds an `index.md` or `README.md`. -/
theorem C7_fallback_index :
    (∀ r : RepoSpec,
      startsWith (str "# " ++ shortName r ++ str "\n") (synthBody r) = true ∧
      List.IsInfix r.repo (synthBody r) ∧
      fmLookup (str "custom_edit_url") (synthData r) =
        some (YVal.ystr (str "https://github.com/" ++ r.repo))) ∧
    (∀ (r : RepoSpec) (out : Str) (fs : FS),
      fsExists fs (joinFile out (str "index.md")) = false →
      fsExists fs (joinFile out (str "README.md")) = false →
      fsRead (indexPhase r out fs) (joinFile out (str "index.md")) =
        some (matterStringify (synthData r) (synthBody r))) ∧
    (∀ (o : Str) (pre post : List RepoSpec) (r : RepoSpec) (fs fs₁ : FS) (w₁ : List Str),
      loop o pre (clearOut o fs) = (fs₁, w₁) →
      fsExists fs₁ (srcDocsPath r) = true →
      fsExists (runAgg (pre ++ r :: post) o fs).1
          (joinFile (joinFile o (shortName r)) (str "index.md")) = true ∨
        fsExists (runAgg (pre ++ r :: post) o fs).1
          (joinFile (joinFile o (shortName r)) (str "README.md")) = true) := by
  refine ⟨?_, ?_, ?_⟩
  · intro r
    refine ⟨?_, ?_, ?_⟩
    · refine startsWith_eq_true_iff.mpr
        ⟨str "\nProject documentation aggregated from `" ++ r.repo ++ str "`.\n", ?_⟩
      unfold synthBody
      rw [show str "\n\nProject documentation aggregated from `" =
          str "\n" ++ str "\nProject documentation aggregated from `" from by decide]
      simp [List.append_assoc]
    · exact ⟨str "# " ++ shortName r ++ str "\n\nProject documentation aggregated from `",
        str "`.\n", by unfold synthBody; simp [List.append_assoc]⟩
    · rfl
  · intro r out fs h1 h2
    unfold indexPhase
    rw [h1, h2]
    simp only [Bool.or_self, Bool.false_eq_true, if_false]
    exact fsRead_fsWrite_self fs _ _
  · intro o pre post r fs fs₁ w₁ hpre hx
    have hrun : (runAgg (pre ++ r :: post) o fs).1 = (loop o post (processRepo o r fs₁).1).1 := by
      unfold runAgg
      rw [loop_append o pre (r :: post), hpre]
      simp [loop]
    rw [hrun]
    have hproc : (processRepo o r fs₁).1 =
        indexPhase r (joinFile o (shortName r))
          (injectPhase r (joinFile o (shortName r))
            (copyPhase r (srcDocsPath r) (joinFile o (shortName r)) fs₁)) := by
      simp [processRepo, hx]
    rw [hproc]
    rcases indexPhase_ensures r (joinFile o (shortName r))
        (injectPhase r (joinFile o (shortName r))
          (copyPhase r (srcDocsPath r) (joinFile o (shortName r)) fs₁)) with hI | hI
    · exact Or.inl (fsExists_loop_mono o post hI)
    · exact Or.inr (fsExists_loop_mono o post hI)

/-- Claim C7, witness: a repo containing only `other.md` ends up, after the
run, with an index or README document in its output directory. -/
theorem C7_fallback_index_witness :
    fsExists
        (runAgg
          [⟨str "peers-app/test-repo", str "_sources/test-repo", some (str "."), some (str "main")⟩]
          (str "projects")
          [(str "_sources/test-repo/other.md", str "# Other Doc")]).1
        (joinFile
          (joinFile (str "projects")
            (shortName ⟨str "peers-app/test-repo", str "_sources/test-repo",
              some (str "."), some (str "main")⟩))
          (str "index.md")) = true ∨
      fsExists
        (runAgg
          [⟨str "peers-app/test-repo", str "_sources/test-repo", some (str "."), some (str "main")⟩]
          (str "projects")
          [(str "_sources/test-repo/other.md", str "# Other Doc")]).1
        (joinFile
          (joinFile (str "projects")
            (shortName ⟨str "peers-app/test-repo", str "_sources/test-repo",
              some (str "."), some (str "main")⟩))
          (str "README.md")) = true :=
  C7_fallback_index.2.2 (str "projects") [] []
    ⟨str "peers-app/test-repo", str "_sources/test-repo", some (str "."), some (str "main")⟩
    [(str "_sources/test-repo/other.md", str "# Other Doc")]
    (clearOut (str "projects") [(str "_sources/test-repo/other.md", str "# Other Doc")])
    [] rfl (by decide)

theorem joinFile_ne_of_disjoint {src out : Str}
    (h1 : startsWith (src ++ str "/") (out ++ str "/") = false)
    (h2 : startsWith (out ++ str "/") (src ++ str "/") = false)
    (rel' rel : Str) : joinFile out rel' ≠ joinFile src rel := by
  intro heq
  have hp1 : (out ++ str "/") <+: ((out ++ str "/") ++ rel') := ⟨rel', rfl⟩
  have hp2 : (src ++ str "/") <+: ((out ++ str "/") ++ rel') := ⟨rel, heq.symm⟩
  rcases List.prefix_or_prefix_of_prefix hp1 hp2 with hp | hp
  · have := startsWith_iff_isPrefix.mpr hp
    rw [h2] at this
    exact Bool.false_ne_true this
  · have := startsWith_iff_isPrefix.mpr hp
    rw [h1] at this
    exact Bool.false_ne_true this

theorem copyList_covers (src out : Str)
    (hne : ∀ rel' rel : Str, joinFile out rel' ≠ joinFile src rel) :
    ∀ (l : List Str) (acc : FS) (rel c : Str),
      rel ∈ l → fsRead acc (joinFile src rel) = some c →
      fsExists (l.foldl (fun a rl => copyFile a (joinFile src rl) (joinFile out rl)) acc)
        (joinFile out rel) = true := by
  intro l
  induction l with
  | nil =>
    intro acc rel c h
    simp at h
  | cons a t ih =>
    intro acc rel c hmem hread
    simp only [List.foldl_cons]
    rcases List.mem_cons.mp hmem with rfl | hmem'
    · have hcp : copyFile acc (joinFile src rel) (joinFile out rel) =
          fsWrite acc (joinFile out rel) c := by
        unfold copyFile
        rw [hread]
      rw [hcp]
      exact fsExists_foldl_mono _ (fun fs b hb => fsExists_copyFile_mono _ _ hb) t _
        (fsExists_fsWrite_self acc _ _)
    · refine ih _ rel c hmem' ?_
      unfold copyFile
      cases hr : fsRead acc (joinFile src a) with
      | none => exact hread
      | some c' =>
        rw [fsRead_fsWrite_ne _ _ (hne a rel)]
        exact hread

/-- Claim C9, counterexample: `image.png` is not a markdown-family file, yet
a dedicated-docs repo containing `docs/image.png` gets it copied into the
output tree by the full-subtree copy. -/
theorem C9_counterexample :
    isMdFamily (str "image.png") = false ∧
    fsRead (run [(str "_sources/peers-sdk/docs/image.png", str "PNG")]).1
      (str "projects/peers-sdk/image.png") = some (str "PNG") := by
  decide

/-- Claim C9 (amended): only the first, top-level selection pass of the
root-files convention is restricted to markdown-family files; the secondary
pattern pass admits any file below `docs/` or `documentation/` (of any
extension, besides top-level `.md` files and `CLAUDE.md`), and the
dedicated-subdirectory convention copies every globbed file of the subtree
into the output, whatever its extension. -/
theorem C9_selection_amended :
    (∀ (fs : FS) (src rel : Str), rel ∈ rootMdSelection fs src → isMdFamily rel = true) ∧
    (∀ (fs : FS) (src rel : Str), rel ∈ docPatternSelection fs src →
      docPatternMatch rel = true) ∧
    (∀ (fs : FS) (src out rel : Str),
      startsWith (src ++ str "/") (out ++ str "/") = false →
      startsWith (out ++ str "/") (src ++ str "/") = false →
      rel ∈ globUnder fs src →
      fsExists (copyTree fs src out) (joinFile out rel) = true) := by
  refine ⟨?_, ?_, ?_⟩
  · intro fs src rel h
    unfold rootMdSelection at h
    exact (Bool.and_eq_true_iff.mp (List.mem_filter.mp h).2).2
  · intro fs src rel h
    unfold docPatternSelection at h
    exact (List.mem_filter.mp h).2
  · intro fs src out rel h1 h2 hg
    obtain ⟨c0, hmem0⟩ := globUnder_mem hg
    obtain ⟨c, hread⟩ := fsRead_isSome_of_mem hmem0
    have hne := joinFile_ne_of_disjoint h1 h2
    unfold copyTree
    cases hr : fsRead fs src with
    | none => exact copyList_covers src out hne _ _ rel c hg hread
    | some cs =>
      refine copyList_covers src out hne _ _ rel c hg ?_
      rw [fsRead_fsWrite_ne _ _ ?_]
      · exact hread
      · intro heq
        have hsw : startsWith (src ++ str "/") (out ++ str "/") = true := by
          rw [heq]
          exact startsWith_eq_true_iff.mpr ⟨rel ++ str "/", by simp [joinFile, List.append_assoc]⟩
        rw [h1] at hsw
        exact Bool.false_ne_true hsw

/-- Claim C9, witness: the amended characterization applied at concrete
inputs — a selected `README.md` is markdown-family, a selected
`docs/diagram.svg` matches the secondary patterns, and a dedicated-subtree
`notes.txt` lands in the output. -/
theorem C9_selection_amended_witness :
    isMdFamily (str "README.md") = true ∧
    docPatternMatch (str "docs/diagram.svg") = true ∧
    fsExists
        (copyTree [(str "_sources/a/docs/notes.txt", str "N")]
          (str "_sources/a/docs") (str "projects/a"))
        (joinFile (str "projects/a") (str "notes.txt")) = true :=
  ⟨C9_selection_amended.1 [(str "_sources/a/README.md", str "R")] (str "_sources/a")
      (str "README.md") (by decide),
   C9_selection_amended.2.1 [(str "_sources/a/docs/diagram.svg", str "S")] (str "_sources/a")
      (str "docs/diagram.svg") (by decide),
   C9_selection_amended.2.2 [(str "_sources/a/docs/notes.txt", str "N")]
      (str "_sources/a/docs") (str "projects/a") (str "notes.txt")
      (by decide) (by decide) (by decide)⟩

/-- Claim C3, counterexample: a filesystem error of kind 'path not found'
injected at the first copy destination aborts the whole run with exit
status 1 — it is not downgraded to a warning, because the per-repo loop has
no error handler around copy/write. -/
theorem C3_counterexample :
    runAggE [(str "projects/peers-sdk/intro.md", FsErrorKind.notFound)] REPOS OUT_ROOT
        [(str "_sources/peers-sdk/docs/intro.md", str "# Intro\n")] =
      Except.error (FsErrorKind.notFound, str "projects/peers-sdk/intro.md") ∧
    exitCode [(str "projects/peers-sdk/intro.md", FsErrorKind.notFound)]
        [(str "_sources/peers-sdk/docs/intro.md", str "# Intro\n")] = 1 := by
  decide

/-- Claim C3 (amended): the only recoverable "not found" situation is the
pre-copy existence check of a repo's source root, which yields a warning and
a skip; an error raised during copy/write — of any kind, 'path not found'
included — propagates out of the per-repo loop at once, skipping every
remaining repo, and the run exits with status 1. -/
theorem C3_error_propagation :
    (∀ (fail : FailSpec) (o : Str) (r : RepoSpec) (fs : FS),
      fsExists fs (srcDocsPath r) = false →
      processRepoE fail o r fs = Except.ok (fs, [skipWarning r])) ∧
    (∀ (fail : FailSpec) (o : Str) (post : List RepoSpec) (r : RepoSpec) (e : FsError)
       (pre : List RepoSpec) (fs fs₁ : FS) (w₁ : List Str),
      loopE fail o pre fs = Except.ok (fs₁, w₁) →
      processRepoE fail o r fs₁ = Except.error e →
      loopE fail o (pre ++ r :: post) fs = Except.error e) ∧
    (∀ (fail : FailSpec) (fs : FS) (e : FsError),
      runAggE fail REPOS OUT_ROOT fs = Except.error e → exitCode fail fs = 1) := by
  refine ⟨?_, ?_, ?_⟩
  · intro fail o r fs h
    simp [processRepoE, h]
  · intro fail o post r e pre
    induction pre with
    | nil =>
      intro fs fs₁ w₁ hpre hproc
      simp only [loopE, Except.ok.injEq, Prod.mk.injEq] at hpre
      obtain ⟨rfl, rfl⟩ := hpre
      simp only [List.nil_append, loopE]
      rw [hproc]
      rfl
    | cons q t ih =>
      intro fs fs₁ w₁ hpre hproc
      simp only [loopE] at hpre
      cases hq : processRepoE fail o q fs with
      | error e' =>
        rw [hq] at hpre
        exact Except.noConfusion hpre
      | ok p =>
        rw [hq] at hpre
        have hpre' : (loopE fail o t p.1 >>= fun q' => Except.ok (q'.1, p.2 ++ q'.2)) =
            Except.ok (fs₁, w₁) := hpre
        cases hl : loopE fail o t p.1 with
        | error e'' =>
          rw [hl] at hpre'
          exact Except.noConfusion hpre'
        | ok ql =>
          rw [hl] at hpre'
          have hpre'' : (Except.ok (ql.1, p.2 ++ ql.2) : Except FsError (FS × List Str)) =
              Except.ok (fs₁, w₁) := hpre'
          simp only [Except.ok.injEq, Prod.mk.injEq] at hpre''
          obtain ⟨h1, h2⟩ := hpre''
          have hres := ih p.1 ql.1 ql.2 hl (h1 ▸ hproc)
          simp only [List.cons_append, loopE]
          rw [hq]
          show (loopE fail o (t ++ r :: post) p.1 >>= fun q' =>
            Except.ok (q'.1, p.2 ++ q'.2)) = Except.error e
          rw [hres]
          rfl
  · intro fail fs e h
    simp [exitCode, h]

/-- Claim C3, witness: the propagation theorem applied at a concrete
configuration — a not-found error injected at the first copy destination
makes the single-repo loop return exactly that error. -/
theorem C3_error_propagation_witness :
    loopE [(str "projects/peers-sdk/intro.md", FsErrorKind.notFound)] (str "projects")
        [⟨str "peers-app/peers-sdk", str "_sources/peers-sdk", some (str "docs"), some (str "main")⟩]
        [(str "_sources/peers-sdk/docs/intro.md", str "# Intro\n")] =
      Except.error (FsErrorKind.notFound, str "projects/peers-sdk/intro.md") :=
  C3_error_propagation.2.1
    [(str "projects/peers-sdk/intro.md", FsErrorKind.notFound)] (str "projects") []
    ⟨str "peers-app/peers-sdk", str "_sources/peers-sdk", some (str "docs"), some (str "main")⟩
    (FsErrorKind.notFound, str "projects/peers-sdk/intro.md") []
    [(str "_sources/peers-sdk/docs/intro.md", str "# Intro\n")]
    [(str "_sources/peers-sdk/docs/intro.md", str "# Intro\n")] [] rfl (by decide)

/-- Claim C8: the repository's own tests set the `OUT_ROOT` environment
variable and expect aggregation to write below it, but `aggregate.ts` never
reads the environment — `OUT_ROOT` is the constant `'projects'` — so with the
override set the output still lands under `projects/` and nothing is written
under the override path. -/
theorem C8_env_override_ignored :
    (runWithEnv [(str "OUT_ROOT", str "test-projects")]
        [(str "_sources/peers-ui/README.md", str "# UI\n")]).1 =
      (runWithEnv [] [(str "_sources/peers-ui/README.md", str "# UI\n")]).1 ∧
    fsRead (runWithEnv [(str "OUT_ROOT", str "test-projects")]
        [(str "_sources/peers-ui/README.md", str "# UI\n")]).1
        (str "projects/peers-ui/README.md") =
      some (str
        "---\ncustom_edit_url: https://github.com/peers-app/peers-ui/edit/main/README.md\n---\n# UI\n\n") ∧
    (runWithEnv [(str "OUT_ROOT", str "test-projects")]
        [(str "_sources/peers-ui/README.md", str "# UI\n")]).1.all
      (fun e => !inDir (str "test-projects") e.1) = true := by
  refine ⟨rfl, ?_, ?_⟩ <;> decide

end Aggregate
